import Mathlib

/-!
Verification development for the AI-Study-Planner core (`src/app.py`).

The core of the application is embedded shallowly:
  * Python strings are Lean `String`s, manipulated through structurally
    recursive helpers over their underlying character lists (Python's
    `strip`, `lower`, `split`, `in`, ...).
  * Python floats are modelled as exact rationals `ℚ`; the source's
    `1e-6` epsilon is the rational `1/1000000`.
  * The two potentially unbounded `while` loops (`build_day_alloc` and
    `rebalance_tasks`) are modelled with an explicit fuel parameter and
    return `none` when the fuel runs out, so that non-termination of the
    source loop is expressible as `∀ fuel, ... = none`.
-/

attribute [local semireducible] Rat.mul Rat.add Rat.sub Rat.inv Rat.ofScientific

/-- The epsilon `1e-6` used throughout `app.py`. -/
def eps : ℚ := 1/1000000

/-! ## String helpers (Python string primitives) -/

/-- Python `sep.join`-free splitting on a single character, as in
`str.split(sep)`: `"a:b".split(":") = ["a","b"]`, `"".split(":") = [""]`. -/
def splitOnChar (sep : Char) : List Char → List (List Char)
  | [] => [[]]
  | c :: cs =>
    let r := splitOnChar sep cs
    if c = sep then [] :: r
    else (c :: r.headD []) :: r.tail

/-- Drop leading whitespace, as the left half of Python `str.strip()`. -/
def dropWs (l : List Char) : List Char := l.dropWhile Char.isWhitespace

/-- Python `str.strip()` on a character list. -/
def stripL (l : List Char) : List Char := ((dropWs l).reverse.dropWhile Char.isWhitespace).reverse

/-- Python `str.strip()`. -/
def pyStrip (s : String) : String := ⟨stripL s.data⟩

/-- Python `str.lower()` (ASCII case folding suffices for the app's inputs). -/
def pyLower (s : String) : String := ⟨s.data.map Char.toLower⟩

/-- Python `str.split(sep)` for a one-character separator. -/
def pySplit (sep : Char) (s : String) : List String := (splitOnChar sep s.data).map (fun l => ⟨l⟩)

/-- Python `c in s` for a single character. -/
def pyHasChar (c : Char) (s : String) : Bool := s.data.contains c

/-- Boolean prefix test on character lists. -/
def isPrefixOfL : List Char → List Char → Bool
  | [], _ => true
  | _ :: _, [] => false
  | a :: as, b :: bs => a = b && isPrefixOfL as bs

/-- Boolean contiguous-substring test on character lists, Python's `needle in t`. -/
def isSubstrL (needle : List Char) : List Char → Bool
  | [] => isPrefixOfL needle []
  | b :: bs => isPrefixOfL needle (b :: bs) || isSubstrL needle bs

/-- Python `needle in s` (substring containment). -/
def pyIn (needle s : String) : Bool := isSubstrL needle.data s.data

/-- Number of whitespace-separated words, Python `len(s.split())`; the boolean
records whether we are currently inside a word. -/
def wordCountAux : Bool → List Char → ℕ
  | _, [] => 0
  | inw, c :: cs =>
    if c.isWhitespace then wordCountAux false cs
    else (if inw then 0 else 1) + wordCountAux true cs

/-- Python `len(s.split())`. -/
def wordCount (s : String) : ℕ := wordCountAux false s.data

/-- Python `sep.join(parts)` restricted to rebuilding the tail of
`line.split(":", 1)`: re-interleave `":"` between the parts. -/
def joinColon : List String → String
  | [] => ""
  | [s] => s
  | s :: rest => s ++ ":" ++ joinColon rest

/-! ## `format_time` (app.py lines 28-38) -/

/-- Python 3 `round` to an integer: round half to even (banker's rounding). -/
def pythonRound (q : ℚ) : ℤ :=
  let f : ℤ := ⌊q⌋
  let frac : ℚ := q - f
  if frac < 1/2 then f
  else if 1/2 < frac then f + 1
  else if f % 2 = 0 then f else f + 1

/-- `format_time` from app.py: convert decimal hours to `"X hrs Y mins"`. -/
def format_time (hours : ℚ) : String :=
  let total_minutes : ℤ := pythonRound (hours * 60)
  let hrs : ℤ := total_minutes / 60
  let mins : ℤ := total_minutes % 60
  if 0 < hrs ∧ 0 < mins then s!"{hrs} hrs {mins} mins"
  else if 0 < hrs then s!"{hrs} hrs"
  else s!"{mins} mins"

/-! ## `predict_difficulty` (app.py lines 40-53) -/

/-- The hard-keyword table of `predict_difficulty`. -/
def hard_kw : List String :=
  ["neural", "deep", "derivative", "proof", "theorem", "optimization", "matrix",
   "bayes", "differential", "gradient", "regression", "entropy", "convergence"]

/-- The easy-keyword table of `predict_difficulty`. -/
def easy_kw : List String :=
  ["basics", "intro", "introduction", "foundation", "overview", "getting started", "simple"]

/-- The medium-keyword table of `predict_difficulty`. -/
def medium_kw : List String :=
  ["application", "concept", "practice", "example", "intermediate"]

/-- Python `any(k in t for k in kws)`. -/
def kwMatch (kws : List String) (t : String) : Bool := kws.any (fun k => pyIn k t)

/-- `predict_difficulty` from app.py: rule-based difficulty predictor. -/
def predict_difficulty (topic : String) : String :=
  let t := pyLower topic
  if kwMatch hard_kw t then "hard"
  else if kwMatch easy_kw t then "easy"
  else if kwMatch medium_kw t then "medium"
  else if 2 ≤ wordCount t then "medium" else "easy"

/-! ## Work items and the parsing loop (app.py lines 179-197) -/

/-- One entry of the `tasks` list
`[subject, topic, diff, base_weight, boost, allocated_hours]`. -/
structure WorkItem where
  subject : String
  topic : String
  diff : String
  base_weight : ℚ
  boost : ℚ
  hours : ℚ
deriving DecidableEq

/-- The `base_weights` dict of app.py. -/
def base_weights : List (String × ℚ) := [("easy", 1), ("medium", 2), ("hard", 3)]

/-- Python `base_weights.get(diff, 1.0)`. -/
def weightOf (diff : String) : ℚ := (base_weights.lookup diff).getD 1

/-- Membership test `diff in base_weights` (dict-key membership). -/
def isKnownDiff (diff : String) : Bool := (base_weights.lookup diff).isSome

/-- The declared difficulty of a parenthesised entry:
`te.split("(")[1].split(")")[0].strip().lower()`. -/
def extract_diff (te : String) : String :=
  pyLower (pyStrip ((pySplit ')' ((pySplit '(' te).getD 1 "")).headD ""))

/-- Parse one comma-separated topic entry of a line (the body of the inner
`for te in topic_entries` loop of app.py). -/
def parse_entry (autoDetect : Bool) (subject te : String) : WorkItem :=
  if pyHasChar '(' te && pyHasChar ')' te then
    let topic_name := pyStrip ((pySplit '(' te).headD "")
    let diff0 := extract_diff te
    let diff := if isKnownDiff diff0 then diff0 else "medium"
    ⟨pyStrip subject, pyStrip topic_name, diff, weightOf diff, 1, 0⟩
  else
    let diff := if autoDetect then predict_difficulty te else "medium"
    ⟨pyStrip subject, pyStrip te, diff, weightOf diff, 1, 0⟩

/-- Parse one input line (the body of the `for line in lines` loop). -/
def parse_line (autoDetect : Bool) (line : String) : List WorkItem :=
  if pyHasChar ':' line then
    match pySplit ':' line with
    | [] => []
    | subject :: rest =>
      let blob := joinColon rest
      let entries := ((pySplit ',' blob).map pyStrip).filter (fun s => s ≠ "")
      entries.map (parse_entry autoDetect subject)
  else []

/-- The whole parsing loop of app.py: split input into stripped non-empty
lines and parse each. -/
def parse_tasks (autoDetect : Bool) (input : String) : List WorkItem :=
  let lines := ((pySplit '\n' input).map pyStrip).filter (fun s => s ≠ "")
  (lines.map (parse_line autoDetect)).flatten

/-! ## `allocate_hours` (app.py lines 55-71) -/

/-- Combined weight `base_weight * boost` of one task. -/
def combined_weight (t : WorkItem) : ℚ := t.base_weight * t.boost

/-- `total_weight = sum([t[3] * t[4] for t in tasks])`. -/
def total_weight (tasks : List WorkItem) : ℚ := (tasks.map combined_weight).sum

/-- `allocate_hours` from app.py: proportional allocation of
`days * daily_hours` by combined weight, zeroing on zero total weight. -/
def allocate_hours (tasks : List WorkItem) (days : ℕ) (daily_hours : ℚ) : List WorkItem :=
  let tw := total_weight tasks
  let total_available : ℚ := (days : ℚ) * daily_hours
  if tw = 0 then
    tasks.map (fun t => { t with hours := 0 })
  else
    tasks.map (fun t => { t with hours := combined_weight t / tw * total_available })

/-- Sum of the allocated hours of a task list. -/
def sumHours (tasks : List WorkItem) : ℚ := (tasks.map WorkItem.hours).sum

/-! ## `build_day_alloc` (app.py lines 73-99) -/

/-- One scheduled chunk `(day, subject, topic, diff, hours)`; the day is
1-based exactly as in the `plan` dict of app.py. -/
structure Chunk where
  day : ℕ
  subject : String
  topic : String
  diff : String
  hrs : ℚ
deriving DecidableEq

/-- Sum of the hours of a chunk list (all days, all chunks of a plan). -/
def chunkSum (cs : List Chunk) : ℚ := (cs.map Chunk.hrs).sum

/-- The mutable state of the scheduling loop in `build_day_alloc`:
`day_index`, `remaining_in_day`, the `day_alloc` list and the flattened
`plan` (chunks carry their 1-based day, in insertion order). -/
structure PackState where
  day_index : ℕ
  remaining_in_day : ℚ
  day_alloc : List ℚ
  plan : List Chunk
deriving DecidableEq

/-- One iteration of the `while remain > 1e-6` body of `build_day_alloc`:
clamp the day index on overflow, take `min(remain, remaining_in_day)`, record
the chunk, and advance/reset the day when it fills up.  Returns the new
`remain` and the new state. -/
def packStep (days : ℕ) (daily_hours : ℚ) (sub topic diff : String) (remain : ℚ)
    (st : PackState) : ℚ × PackState :=
  let di := if days ≤ st.day_index then days - 1 else st.day_index
  let can_take := min remain st.remaining_in_day
  let alloc' := st.day_alloc.set di (st.day_alloc.getD di 0 + can_take)
  let plan' := st.plan ++ [⟨di + 1, sub, topic, diff, can_take⟩]
  let rd := st.remaining_in_day - can_take
  (remain - can_take,
    if rd ≤ eps then
      ⟨di + 1, if di + 1 < days then daily_hours else rd, alloc', plan'⟩
    else
      ⟨di, rd, alloc', plan'⟩)

/-- The inner `while remain > 1e-6` loop of `build_day_alloc` for one task,
with explicit fuel; `none` models non-termination within the given fuel. -/
def packWhile (days : ℕ) (daily_hours : ℚ) (sub topic diff : String) :
    ℕ → ℚ → PackState → Option PackState
  | 0, _, _ => none
  | fuel+1, remain, st =>
    if eps < remain then
      let s' := packStep days daily_hours sub topic diff remain st
      packWhile days daily_hours sub topic diff fuel s'.1 s'.2
    else some st

/-- `build_day_alloc` from app.py: sequentially fill days up to `daily_hours`;
returns `day_alloc` and the flattened plan, or `none` if some task's while
loop does not finish within `fuel` iterations. -/
def build_day_alloc (fuel : ℕ) (tasks : List WorkItem) (days : ℕ) (daily_hours : ℚ) :
    Option (List ℚ × List Chunk) :=
  let st0 : PackState := ⟨0, daily_hours, List.replicate days 0, []⟩
  (tasks.foldlM (fun st t => packWhile days daily_hours t.subject t.topic t.diff fuel t.hours st)
    st0).map (fun st => (st.day_alloc, st.plan))

/-! ## `rebalance_tasks` (app.py lines 101-143) -/

/-- One entry of the `flat` list `[subject, topic, diff, weight, hours]`. -/
structure FlatItem where
  subject : String
  topic : String
  diff : String
  weight : ℚ
  hrs : ℚ
deriving DecidableEq

/-- Stable insertion of an element into a weight-descending sorted list:
the element goes before the first strictly lighter entry, so that equal
weights keep their original relative order, as Python's stable
`sort(key=..., reverse=True)` does. -/
def insertWDesc (x : FlatItem) : List FlatItem → List FlatItem
  | [] => [x]
  | y :: ys => if y.weight ≤ x.weight then x :: y :: ys else y :: insertWDesc x ys

/-- Python's stable `flat.sort(key=lambda x: x[3], reverse=True)`. -/
def sortWDesc : List FlatItem → List FlatItem
  | [] => []
  | x :: xs => insertWDesc x (sortWDesc xs)

/-- The `for d in range(days)` scan of `rebalance_tasks`: place chunks of the
current item into every day that still has `space > 1e-6`, breaking out as
soon as the item is exhausted.  Arguments after the day list: `day_loads`,
accumulated chunks, `remaining`, `placed`. -/
def rebalScan (daily_hours : ℚ) (f : FlatItem) :
    List ℕ → List ℚ → List Chunk → ℚ → Bool → (List ℚ × List Chunk × ℚ × Bool)
  | [], loads, cs, remaining, placed => (loads, cs, remaining, placed)
  | d :: ds, loads, cs, remaining, placed =>
    let space := daily_hours - loads.getD d 0
    if eps < space then
      let take := min space remaining
      let loads' := loads.set d (loads.getD d 0 + take)
      let cs' := cs ++ [⟨d + 1, f.subject, f.topic, f.diff, take⟩]
      let remaining' := remaining - take
      if remaining' ≤ eps then (loads', cs', remaining', true)
      else rebalScan daily_hours f ds loads' cs' remaining' true
    else rebalScan daily_hours f ds loads cs remaining placed

/-- The `while remaining > 1e-6` loop of `rebalance_tasks` for one flat item
(with fuel): scan all days; if nothing was placed, append the whole
remainder to the last day as overflow and stop. -/
def rebalWhile (days : ℕ) (daily_hours : ℚ) (f : FlatItem) :
    ℕ → ℚ → List ℚ → List Chunk → Option (List ℚ × List Chunk)
  | 0, _, _, _ => none
  | fuel+1, remaining, loads, cs =>
    if eps < remaining then
      match rebalScan daily_hours f (List.range days) loads cs remaining false with
      | (loads', cs', remaining', placed) =>
        if placed then rebalWhile days daily_hours f fuel remaining' loads' cs'
        else
          some (loads'.set (days - 1) (loads'.getD (days - 1) 0 + remaining'),
                cs' ++ [⟨days, f.subject, f.topic, f.diff, remaining'⟩])
    else some (loads, cs)

/-- `rebalance_tasks` from app.py: flatten, sort by combined weight
descending (stably), then greedily place every item into the earliest days
with free space, overflowing into the last day.  Returns `day_loads` and the
flattened plan (only non-empty day buckets appear in the app's plan dict,
which the flattened chunk list reflects directly). -/
def rebalance_tasks (fuel : ℕ) (tasks : List WorkItem) (days : ℕ) (daily_hours : ℚ) :
    Option (List ℚ × List Chunk) :=
  let flat := sortWDesc (tasks.map fun t => ⟨t.subject, t.topic, t.diff, combined_weight t, t.hours⟩)
  flat.foldlM (fun acc f => rebalWhile days daily_hours f fuel f.hrs acc.1 acc.2)
    (List.replicate days 0, [])

/-! ## The main workflow (app.py lines 177-266) -/

/-- Stable insertion for the weight-descending sort of `scheduled_tasks`. -/
def insertTaskWDesc (x : WorkItem) : List WorkItem → List WorkItem
  | [] => [x]
  | y :: ys =>
    if combined_weight y ≤ combined_weight x then x :: y :: ys else y :: insertTaskWDesc x ys

/-- Python's stable `sorted(tasks, key=lambda x: (x[3] * x[4]), reverse=True)`
(app.py line 227). -/
def scheduled_tasks : List WorkItem → List WorkItem
  | [] => []
  | x :: xs => insertTaskWDesc x (scheduled_tasks xs)

/-- The generate-plan pipeline with all priority boosts at their default
`1.0`: parse, allocate, sort hardest-first, and pack into days.  Returns the
scheduled task list together with `build_day_alloc`'s result. -/
def generate_plan (fuel : ℕ) (input : String) (days : ℕ) (daily_hours : ℚ) :
    List WorkItem × Option (List ℚ × List Chunk) :=
  let tasks := allocate_hours (parse_tasks true input) days daily_hours
  let sched := scheduled_tasks tasks
  (sched, build_day_alloc fuel sched days daily_hours)

/-! ## Helper lemmas -/

/-- A difficulty string is a key of `base_weights` iff it is one of the three
canonical tiers. -/
theorem isKnownDiff_iff (d : String) :
    isKnownDiff d = true ↔ (d = "easy" ∨ d = "medium" ∨ d = "hard") := by
  have e : ∀ s : String, d ≠ s → (d == s) = false := fun s h => beq_eq_false_iff_ne.mpr h
  have e' : ∀ s : String, d = s → (d == s) = true := fun s h => beq_iff_eq.mpr h
  unfold isKnownDiff base_weights
  by_cases h1 : d = "easy" <;> by_cases h2 : d = "medium" <;> by_cases h3 : d = "hard" <;>
    simp [List.lookup, h1, h2, h3, e, e']

/-- Python `round` of a nonnegative rational is nonnegative. -/
theorem pythonRound_nonneg (q : ℚ) (h : 0 ≤ q) : 0 ≤ pythonRound q := by
  unfold pythonRound
  have h0 : (0:ℤ) ≤ ⌊q⌋ := Int.floor_nonneg.mpr h
  dsimp only
  split_ifs <;> omega

/-- Multiplying each mapped value by a constant scales the sum. -/
theorem sum_map_mul_const (l : List WorkItem) (f : WorkItem → ℚ) (c : ℚ) :
    (l.map fun t => f t * c).sum = (l.map f).sum * c := by
  induction l with
  | nil => simp
  | cons x xs ih => simp [ih, add_mul]

/-! ## Claim C6: zero total weight -/

/-- C6: when the total combined weight is 0 the allocation engine zeroes every
item's hours (in particular on the empty list) and returns normally — the
embedding is a total function, so no division error can propagate. -/
theorem allocate_hours_zero_weight (tasks : List WorkItem) (days : ℕ) (dh : ℚ)
    (h : total_weight tasks = 0) :
    allocate_hours tasks days dh = tasks.map (fun t => { t with hours := 0 }) ∧
    ∀ t ∈ allocate_hours tasks days dh, t.hours = 0 := by
  constructor
  · simp [allocate_hours, h]
  · intro t ht
    simp only [allocate_hours, h, if_pos] at ht
    obtain ⟨u, _, rfl⟩ := List.mem_map.mp ht
    rfl

/-- Witness for C6 at the empty task list. -/
theorem allocate_hours_zero_weight_witness :
    allocate_hours [] 3 2 = List.map (fun t => { t with hours := 0 }) ([] : List WorkItem) :=
  (allocate_hours_zero_weight [] 3 2 (by decide)).1

/-! ## Claim C1: proportional allocation and conservation -/

/-- C1: with positive total weight, every item receives exactly
`combined_weight / total_weight * (days * daily_hours)` and the allocated
hours sum to exactly `days * daily_hours` (so in particular within `1e-6`). -/
theorem allocate_hours_proportional (tasks : List WorkItem) (days : ℕ) (daily_hours : ℚ)
    (hne : tasks ≠ []) (hw : 0 < total_weight tasks) :
    (allocate_hours tasks days daily_hours).map WorkItem.hours =
      tasks.map (fun t =>
        combined_weight t / total_weight tasks * ((days : ℚ) * daily_hours)) ∧
    sumHours (allocate_hours tasks days daily_hours) = (days : ℚ) * daily_hours := by
  have hw' : total_weight tasks ≠ 0 := ne_of_gt hw
  have hmap : (allocate_hours tasks days daily_hours).map WorkItem.hours =
      tasks.map (fun t =>
        combined_weight t / total_weight tasks * ((days : ℚ) * daily_hours)) := by
    unfold allocate_hours
    rw [if_neg hw', List.map_map]
    rfl
  refine ⟨hmap, ?_⟩
  unfold sumHours
  rw [hmap]
  have step : (fun t => combined_weight t / total_weight tasks * ((days : ℚ) * daily_hours)) =
      (fun t => combined_weight t * (((days : ℚ) * daily_hours) / total_weight tasks)) := by
    funext t; ring
  rw [step, sum_map_mul_const]
  show total_weight tasks * ((days : ℚ) * daily_hours / total_weight tasks) = _
  rw [mul_comm]
  exact div_mul_cancel₀ _ hw'

/-- Witness for C1 at a one-item list with weight 1, `days = 2`,
`daily_hours = 3`. -/
theorem allocate_hours_proportional_witness :
    sumHours (allocate_hours [(⟨"a", "b", "easy", 1, 1, 0⟩ : WorkItem)] 2 3) =
      ((2 : ℕ) : ℚ) * 3 :=
  (allocate_hours_proportional [⟨"a", "b", "easy", 1, 1, 0⟩] 2 3 (by decide) (by decide)).2

/-! ## Claim C9: the time formatter -/

/-- Spec-side formatter, following the words of §4.7 of the spec: convert to
whole minutes with Python rounding, split by `div`/`mod` 60, then the three
guarded output forms (`both nonzero`, `m == 0 and h > 0`, `h == 0`). -/
def formatTimeSpec (hours : ℚ) : String :=
  let minutes : ℤ := pythonRound (hours * 60)
  let h : ℤ := minutes / 60
  let m : ℤ := minutes % 60
  if h ≠ 0 ∧ m ≠ 0 then s!"{h} hrs {m} mins"
  else if m = 0 ∧ 0 < h then s!"{h} hrs"
  else s!"{m} mins"

/-- C9: `format_time` is total by construction and, for nonnegative hours,
agrees with the spec's contract (round to whole minutes, split div/mod 60,
three output cases); the three concrete examples evaluate as specified. -/
theorem format_time_contract (hours : ℚ) (h0 : 0 ≤ hours) :
    format_time hours = formatTimeSpec hours ∧ format_time 0 = "0 mins" ∧
    format_time 1.5 = "1 hrs 30 mins" ∧ format_time 2 = "2 hrs" := by
  refine ⟨?_, by decide, by decide, by decide⟩
  have hm : 0 ≤ pythonRound (hours * 60) := pythonRound_nonneg _ (by positivity)
  simp only [format_time, formatTimeSpec]
  set tm := pythonRound (hours * 60) with htm
  have hdiv : 0 ≤ tm / 60 := Int.ediv_nonneg hm (by norm_num)
  have hmod : 0 ≤ tm % 60 := Int.emod_nonneg tm (by norm_num)
  by_cases h1 : 0 < tm / 60 ∧ 0 < tm % 60
  · rw [if_pos h1, if_pos (by omega : tm / 60 ≠ 0 ∧ tm % 60 ≠ 0)]
  · rw [if_neg h1]
    by_cases h2 : 0 < tm / 60
    · have hz : tm % 60 = 0 := by omega
      rw [if_pos h2, if_neg (by omega : ¬(tm / 60 ≠ 0 ∧ tm % 60 ≠ 0)),
        if_pos (⟨hz, h2⟩ : tm % 60 = 0 ∧ 0 < tm / 60)]
    · have hz : tm / 60 = 0 := by omega
      rw [if_neg h2, if_neg (by omega : ¬(tm / 60 ≠ 0 ∧ tm % 60 ≠ 0)),
        if_neg (by omega : ¬(tm % 60 = 0 ∧ 0 < tm / 60))]

/-- Witness for C9 at `hours = 3/2`. -/
theorem format_time_contract_witness :
    format_time (3/2) = formatTimeSpec (3/2) ∧ format_time 0 = "0 mins" ∧
    format_time 1.5 = "1 hrs 30 mins" ∧ format_time 2 = "2 hrs" :=
  format_time_contract (3/2) (by norm_num)

/-! ## Claim C7: the parser -/

/-- C7: the reference input parses to exactly the two expected work items;
any line without a colon contributes nothing; any parenthesised entry whose
declared difficulty is not easy/medium/hard is normalised to medium. -/
theorem parser_contract (s line te : String)
    (hline : pyHasChar ':' line = false)
    (hpar : (pyHasChar '(' te && pyHasChar ')' te) = true)
    (hbad : ¬(extract_diff te = "easy" ∨ extract_diff te = "medium" ∨
      extract_diff te = "hard")) :
    parse_tasks true "Math: Algebra (hard), Calculus (medium)" =
      [⟨"Math", "Algebra", "hard", 3, 1, 0⟩, ⟨"Math", "Calculus", "medium", 2, 1, 0⟩] ∧
    parse_line true line = [] ∧
    (parse_entry true s te).diff = "medium" := by
  refine ⟨by decide, ?_, ?_⟩
  · simp [parse_line, hline]
  · have hk : isKnownDiff (extract_diff te) = false :=
      Bool.eq_false_iff.mpr (fun hc => hbad ((isKnownDiff_iff _).mp hc))
    simp [parse_entry, hpar, hk]

/-- Witness for C7 with a colon-free line and a bogus declared difficulty. -/
theorem parser_contract_witness :
    parse_tasks true "Math: Algebra (hard), Calculus (medium)" =
      [⟨"Math", "Algebra", "hard", 3, 1, 0⟩, ⟨"Math", "Calculus", "medium", 2, 1, 0⟩] ∧
    parse_line true "no colon here" = [] ∧
    (parse_entry true "X" "Y (bogus)").diff = "medium" :=
  parser_contract "X" "no colon here" "Y (bogus)" (by decide) (by decide) (by decide)

/-! ## Claim C8: the difficulty classifier -/

/-- C8: `predict_difficulty` is a total function into {easy, medium, hard};
hard keywords take precedence, then easy, then medium, all matched
case-insensitively by substring; with no keyword match the word-count
fallback classifies ≥ 2 words as medium and fewer as easy. -/
theorem predict_difficulty_contract (topic : String) :
    (predict_difficulty topic = "easy" ∨ predict_difficulty topic = "medium" ∨
      predict_difficulty topic = "hard") ∧
    (kwMatch hard_kw (pyLower topic) = true → predict_difficulty topic = "hard") ∧
    (kwMatch hard_kw (pyLower topic) = false → kwMatch easy_kw (pyLower topic) = true →
      predict_difficulty topic = "easy") ∧
    (kwMatch hard_kw (pyLower topic) = false → kwMatch easy_kw (pyLower topic) = false →
      kwMatch medium_kw (pyLower topic) = true → predict_difficulty topic = "medium") ∧
    (kwMatch hard_kw (pyLower topic) = false → kwMatch easy_kw (pyLower topic) = false →
      kwMatch medium_kw (pyLower topic) = false →
      predict_difficulty topic =
        if 2 ≤ wordCount (pyLower topic) then "medium" else "easy") := by
  refine ⟨?_, ?_, ?_, ?_, ?_⟩
  · simp only [predict_difficulty]
    split_ifs <;> simp
  · intro h; simp [predict_difficulty, h]
  · intro h1 h2; simp [predict_difficulty, h1, h2]
  · intro h1 h2 h3; simp [predict_difficulty, h1, h2, h3]
  · intro h1 h2 h3; simp [predict_difficulty, h1, h2, h3]

/-- Witness for C8 at a hard-keyword topic. -/
theorem predict_difficulty_contract_witness :
    predict_difficulty "Neural Networks" = "hard" :=
  (predict_difficulty_contract "Neural Networks").2.1 (by decide)

/-! ## Claim C2: end-to-end scenario -/

/-- C2: on the reference input with `days = 2`, `daily_hours = 3`, the
pipeline produces combined weights `[3, 1, 1]`, allocations
Algebra 3.6h / Calculus 1.2h / Basics 1.2h, and packs Day 1 with 3h of
Algebra and Day 2 with Algebra's remaining 0.6h plus Calculus 1.2h plus
Basics 1.2h, both days totalling exactly 3 hours. -/
theorem generate_plan_end_to_end :
    ((generate_plan 20 "Math: Algebra (hard), Calculus (easy)\nPython: Basics (easy)" 2 3).1.map
        (fun t => (t.topic, combined_weight t, t.hours)) =
      [("Algebra", 3, 3.6), ("Calculus", 1, 1.2), ("Basics", 1, 1.2)]) ∧
    (generate_plan 20 "Math: Algebra (hard), Calculus (easy)\nPython: Basics (easy)" 2 3).2 =
      some ([3, 3],
        [⟨1, "Math", "Algebra", "hard", 3⟩, ⟨2, "Math", "Algebra", "hard", 0.6⟩,
         ⟨2, "Math", "Calculus", "easy", 1.2⟩, ⟨2, "Python", "Basics", "easy", 1.2⟩]) := by
  exact ⟨by decide, by decide⟩

/-! ## List indexing helper lemmas -/

/-- Reading back the updated index of an in-range `set`. -/
theorem getD_set_self (l : List ℚ) (i : ℕ) (a d : ℚ) (h : i < l.length) :
    (l.set i a).getD i d = a := by
  induction l generalizing i with
  | nil => simp at h
  | cons x xs ih =>
    cases i with
    | zero => rfl
    | succ n => simpa using ih n (by simpa using h)

/-- Reading any other index of a `set`. -/
theorem getD_set_ne (l : List ℚ) (i j : ℕ) (a d : ℚ) (h : i ≠ j) :
    (l.set i a).getD j d = l.getD j d := by
  induction l generalizing i j with
  | nil => rfl
  | cons x xs ih =>
    cases i with
    | zero =>
      cases j with
      | zero => exact absurd rfl h
      | succ m => rfl
    | succ n =>
      cases j with
      | zero => rfl
      | succ m => simpa using ih n m (by omega)

/-- Reading a replicated list. -/
theorem getD_replicate (n i : ℕ) (c d : ℚ) :
    (List.replicate n c).getD i d = if i < n then c else d := by
  induction n generalizing i with
  | zero => simp [List.replicate]
  | succ m ih =>
    cases i with
    | zero => simp [List.replicate]
    | succ k => simpa [List.replicate] using ih k

/-- Every member of a rational list is read off at some in-range index. -/
theorem mem_exists_getD (l : List ℚ) (x : ℚ) (hx : x ∈ l) :
    ∃ d, d < l.length ∧ l.getD d 0 = x := by
  induction l with
  | nil => simp at hx
  | cons y ys ih =>
    rcases List.mem_cons.mp hx with rfl | hmem
    · exact ⟨0, by simp, rfl⟩
    · obtain ⟨d, hd, hget⟩ := ih hmem
      exact ⟨d + 1, by simpa using hd, by simpa using hget⟩

/-! ## Invariants of the `build_day_alloc` loop -/

/-- Invariant of the scheduling state: the open day's residual capacity is
nonnegative, the day index never passes `days`, `day_alloc` keeps its length,
the open day's total plus its residual capacity fits in `daily_hours`, every
other day's total fits in `daily_hours`, days after the open one are still
empty, and all recorded chunk days lie in `1..days`. -/
def PackInv (days : ℕ) (dh : ℚ) (st : PackState) : Prop :=
  0 ≤ st.remaining_in_day ∧
  st.day_index ≤ days ∧
  st.day_alloc.length = days ∧
  st.day_alloc.getD (min st.day_index (days - 1)) 0 + st.remaining_in_day ≤ dh ∧
  (∀ j, j ≠ min st.day_index (days - 1) → st.day_alloc.getD j 0 ≤ dh) ∧
  (∀ j, min st.day_index (days - 1) < j → st.day_alloc.getD j 0 = 0) ∧
  (∀ c ∈ st.plan, 1 ≤ c.day ∧ c.day ≤ days)

/-- One `packStep` preserves the scheduling invariant. -/
theorem packStep_inv (days : ℕ) (dh : ℚ) (sub topic diff : String) (r : ℚ) (st : PackState)
    (hdays : 1 ≤ days) (hdh : 0 ≤ dh) (h : PackInv days dh st) :
    PackInv days dh (packStep days dh sub topic diff r st).2 := by
  obtain ⟨h1, h2, h3, h4, h5, h6, h7⟩ := h
  have hdi : (if days ≤ st.day_index then days - 1 else st.day_index) =
      min st.day_index (days - 1) := by split <;> omega
  simp only [packStep, hdi]
  set cur := min st.day_index (days - 1) with hcur
  have hcur_lt : cur < days := by omega
  set ct := min r st.remaining_in_day with hct
  have hct_rd : ct ≤ st.remaining_in_day := min_le_right _ _
  have heps : (0:ℚ) < eps := by norm_num [eps]
  have hlen : (st.day_alloc.set cur (st.day_alloc.getD cur 0 + ct)).length = days := by
    simpa [List.length_set] using h3
  have hself : (st.day_alloc.set cur (st.day_alloc.getD cur 0 + ct)).getD cur 0 =
      st.day_alloc.getD cur 0 + ct := getD_set_self _ _ _ _ (by rw [h3]; omega)
  have hother : ∀ j, j ≠ cur →
      (st.day_alloc.set cur (st.day_alloc.getD cur 0 + ct)).getD j 0 =
        st.day_alloc.getD j 0 := fun j hj => getD_set_ne _ _ _ _ _ (Ne.symm hj)
  have hplan : ∀ c ∈ st.plan ++ [(⟨cur + 1, sub, topic, diff, ct⟩ : Chunk)],
      1 ≤ c.day ∧ c.day ≤ days := by
    intro c hc
    rcases List.mem_append.mp hc with hc | hc
    · exact h7 c hc
    · simp only [List.mem_singleton] at hc
      subst hc
      exact ⟨by show 1 ≤ cur + 1; omega, by show cur + 1 ≤ days; omega⟩
  unfold PackInv
  split_ifs with hrd hadv <;> dsimp only
  · -- the day filled up and there is a later day: advance and reset
    have hc' : min (cur + 1) (days - 1) = cur + 1 := by omega
    refine ⟨hdh, by omega, hlen, ?_, ?_, ?_, hplan⟩
    · simp only [hc']
      rw [hother _ (by omega), h6 (cur + 1) (by omega)]
      simp
    · intro j hj
      simp only [hc'] at hj
      rcases eq_or_ne j cur with rfl | hne
      · rw [hself]; linarith
      · rw [hother j hne]
        exact h5 j (by omega)
    · intro j hj
      simp only [hc'] at hj
      rw [hother j (by omega)]
      exact h6 j (by omega)
  · -- the day filled up but it was the last one: no reset
    have hcl : cur + 1 = days := by omega
    have hc' : min (cur + 1) (days - 1) = cur := by omega
    refine ⟨by linarith, by omega, hlen, ?_, ?_, ?_, hplan⟩
    · simp only [hc']
      rw [hself]; linarith
    · intro j hj
      simp only [hc'] at hj
      rw [hother j hj]
      exact h5 j hj
    · intro j hj
      simp only [hc'] at hj
      rw [hother j (by omega)]
      exact h6 j hj
  · -- the day still has room: stay on it
    have hc' : min cur (days - 1) = cur := by omega
    refine ⟨by linarith, by omega, hlen, ?_, ?_, ?_, hplan⟩
    · simp only [hc']
      rw [hself]; linarith
    · intro j hj
      simp only [hc'] at hj
      rw [hother j hj]
      exact h5 j hj
    · intro j hj
      simp only [hc'] at hj
      rw [hother j (by omega)]
      exact h6 j hj

/-- The while loop preserves the scheduling invariant whenever it finishes. -/
theorem packWhile_inv (days : ℕ) (dh : ℚ) (sub topic diff : String)
    (hdays : 1 ≤ days) (hdh : 0 ≤ dh) :
    ∀ fuel (r : ℚ) (st st' : PackState), PackInv days dh st →
      packWhile days dh sub topic diff fuel r st = some st' → PackInv days dh st' := by
  intro fuel
  induction fuel with
  | zero => intro r st st' _ hsome; cases hsome
  | succ n ih =>
    intro r st st' hinv hsome
    rw [packWhile] at hsome
    split_ifs at hsome with hc
    · exact ih _ _ _ (packStep_inv days dh sub topic diff r st hdays hdh hinv) hsome
    · cases hsome; exact hinv

/-- Folding the while loop over all tasks preserves the invariant. -/
theorem packFold_inv (days : ℕ) (dh : ℚ) (fuel : ℕ) (hdays : 1 ≤ days) (hdh : 0 ≤ dh) :
    ∀ (ts : List WorkItem) (st st' : PackState), PackInv days dh st →
      ts.foldlM (fun st t => packWhile days dh t.subject t.topic t.diff fuel t.hours st) st =
        some st' → PackInv days dh st' := by
  intro ts
  induction ts with
  | nil =>
    intro st st' h hs
    simp only [List.foldlM_nil] at hs
    cases hs; exact h
  | cons t ts ih =>
    intro st st' h hs
    rw [List.foldlM_cons] at hs
    rcases Option.bind_eq_some.mp hs with ⟨mid, h1, h2⟩
    exact ih mid st' (packWhile_inv days dh t.subject t.topic t.diff hdays hdh fuel t.hours st mid h h1) h2

/-- The initial scheduling state satisfies the invariant. -/
theorem packInit_inv (days : ℕ) (dh : ℚ) (hdays : 1 ≤ days) (hdh : 0 ≤ dh) :
    PackInv days dh ⟨0, dh, List.replicate days 0, []⟩ := by
  have hz : ∀ j, (List.replicate days (0:ℚ)).getD j 0 = 0 := by
    intro j; rw [getD_replicate]; split <;> rfl
  refine ⟨hdh, Nat.zero_le days, by simp, ?_, ?_, ?_, by simp⟩
  · rw [hz]; linarith
  · intro j _; rw [hz]; exact hdh
  · intro j _; exact hz j

/-! ## Claim C4: capacity respect -/

/-- C4: whenever `build_day_alloc` returns, every entry of `day_alloc` is at
most `daily_hours` (hence at most `daily_hours + 1e-6`); in particular this
holds when the total allocated hours fit in the `days * daily_hours` budget. -/
theorem build_day_alloc_capacity (tasks : List WorkItem) (days : ℕ) (dh : ℚ) (fuel : ℕ)
    (alloc : List ℚ) (plan : List Chunk)
    (hdays : 1 ≤ days) (hdh : 0 ≤ dh)
    (hbudget : sumHours tasks ≤ (days : ℚ) * dh)
    (hout : build_day_alloc fuel tasks days dh = some (alloc, plan)) :
    ∀ x ∈ alloc, x ≤ dh + eps := by
  have heps : (0:ℚ) < eps := by norm_num [eps]
  unfold build_day_alloc at hout
  rcases Option.map_eq_some'.mp hout with ⟨st, hst, heq⟩
  have halloc : st.day_alloc = alloc := congrArg Prod.fst heq
  obtain ⟨h1, h2, h3, h4, h5, h6, h7⟩ :=
    packFold_inv days dh fuel hdays hdh tasks _ st (packInit_inv days dh hdays hdh) hst
  intro x hx
  rw [← halloc] at hx
  obtain ⟨j, hj, hget⟩ := mem_exists_getD _ x hx
  rcases eq_or_ne j (min st.day_index (days - 1)) with rfl | hne
  · rw [← hget]; linarith
  · have := h5 j hne; rw [hget] at this; linarith

/-- Witness for C4 on a one-task instance that fits its budget. -/
theorem build_day_alloc_capacity_witness : (2:ℚ) ≤ 3 + eps :=
  build_day_alloc_capacity [⟨"a", "b", "c", 1, 1, 2⟩] 2 3 10 [2, 0] [⟨1, "a", "b", "c", 2⟩]
    (by decide) (by decide) (by decide) (by decide) 2 (by decide)

/-! ## Conservation bookkeeping for `build_day_alloc` -/

/-- Chunk sums add over list concatenation. -/
theorem chunkSum_append (cs1 cs2 : List Chunk) :
    chunkSum (cs1 ++ cs2) = chunkSum cs1 + chunkSum cs2 := by
  simp [chunkSum]

/-- The plan after one `packStep` is the old plan with one appended chunk of
`min remain remaining_in_day` hours. -/
theorem packStep_plan (days : ℕ) (dh : ℚ) (sub topic diff : String) (r : ℚ) (st : PackState) :
    (packStep days dh sub topic diff r st).2.plan =
      st.plan ++ [⟨(if days ≤ st.day_index then days - 1 else st.day_index) + 1, sub, topic,
        diff, min r st.remaining_in_day⟩] := by
  simp only [packStep]
  split_ifs <;> rfl

/-- The new `remain` after one `packStep`. -/
theorem packStep_fst (days : ℕ) (dh : ℚ) (sub topic diff : String) (r : ℚ) (st : PackState) :
    (packStep days dh sub topic diff r st).1 = r - min r st.remaining_in_day := rfl

/-- Whenever the while loop of `build_day_alloc` finishes a task, the chunk
hours it recorded account for the task's duration up to a dropped residue of
at most `1e-6` (and never exceed it). -/
theorem packWhile_sum (days : ℕ) (dh : ℚ) (sub topic diff : String) :
    ∀ fuel (r : ℚ) (st st' : PackState), 0 ≤ r →
      packWhile days dh sub topic diff fuel r st = some st' →
      chunkSum st'.plan ≤ chunkSum st.plan + r ∧
      chunkSum st.plan + r ≤ chunkSum st'.plan + eps := by
  intro fuel
  induction fuel with
  | zero => intro r st st' _ hsome; cases hsome
  | succ n ih =>
    intro r st st' hr0 hsome
    rw [packWhile] at hsome
    split_ifs at hsome with hc
    · have hstep := packStep_plan days dh sub topic diff r st
      have hfst := packStep_fst days dh sub topic diff r st
      set ct := min r st.remaining_in_day with hct
      have hct_r : ct ≤ r := min_le_left _ _
      have hnn : (0:ℚ) ≤ r - ct := by linarith
      have hrec := ih _ _ _ (by rw [hfst]; exact hnn) hsome
      have hmid : chunkSum (packStep days dh sub topic diff r st).2.plan =
          chunkSum st.plan + ct := by
        rw [hstep, chunkSum_append]
        simp [chunkSum]
      rw [hfst, hmid] at hrec
      constructor <;> linarith [hrec.1, hrec.2]
    · cases hsome
      push_neg at hc
      constructor <;> linarith

/-- Folding the while loop over a task list: the total recorded chunk hours
equal the total task hours up to one dropped residue of at most `1e-6` per
task. -/
theorem packFold_sum (days : ℕ) (dh : ℚ) (fuel : ℕ) :
    ∀ (ts : List WorkItem) (st st' : PackState), (∀ t ∈ ts, 0 ≤ t.hours) →
      ts.foldlM (fun st t => packWhile days dh t.subject t.topic t.diff fuel t.hours st) st =
        some st' →
      chunkSum st'.plan ≤ chunkSum st.plan + sumHours ts ∧
      chunkSum st.plan + sumHours ts ≤ chunkSum st'.plan + ts.length * eps := by
  intro ts
  induction ts with
  | nil =>
    intro st st' _ hs
    simp only [List.foldlM_nil] at hs
    cases hs
    constructor <;> simp [sumHours]
  | cons t ts ih =>
    intro st st' hnn hs
    rw [List.foldlM_cons] at hs
    rcases Option.bind_eq_some.mp hs with ⟨mid, h1, h2⟩
    have hw := packWhile_sum days dh t.subject t.topic t.diff fuel t.hours st mid
      (hnn t (List.mem_cons_self t ts)) h1
    have hr := ih mid st' (fun u hu => hnn u (List.mem_cons_of_mem t hu)) h2
    have hsum : sumHours (t :: ts) = t.hours + sumHours ts := by simp [sumHours]
    have hlen : ((t :: ts).length : ℚ) * eps = eps + ts.length * eps := by
      push_cast [List.length_cons]
      ring
    rw [hsum, hlen]
    constructor <;> linarith [hw.1, hw.2, hr.1, hr.2]

/-! ## Divergence of `build_day_alloc` under overflow (claim C5) -/

/-- Total capacity still reachable from a scheduling state: the open day's
residual plus one full `daily_hours` for each untouched later day.  Once the
day index passes `days` the residual is never reset, so no further capacity
exists. -/
def capLeft (days : ℕ) (dh : ℚ) (st : PackState) : ℚ :=
  st.remaining_in_day + ((days - 1 - min st.day_index (days - 1) : ℕ) : ℚ) * dh

/-- One `packStep` consumes at least its chunk from the remaining capacity,
and keeps the residual nonnegative and the day index bounded. -/
theorem packStep_cap (days : ℕ) (dh : ℚ) (sub topic diff : String) (r : ℚ) (st : PackState)
    (hdays : 1 ≤ days) (hdh : 0 ≤ dh)
    (h0 : 0 ≤ st.remaining_in_day) (hle : st.day_index ≤ days) :
    0 ≤ (packStep days dh sub topic diff r st).2.remaining_in_day ∧
    (packStep days dh sub topic diff r st).2.day_index ≤ days ∧
    capLeft days dh (packStep days dh sub topic diff r st).2 ≤
      capLeft days dh st - min r st.remaining_in_day := by
  have hdi : (if days ≤ st.day_index then days - 1 else st.day_index) =
      min st.day_index (days - 1) := by split <;> omega
  simp only [packStep, hdi, capLeft]
  set cur := min st.day_index (days - 1) with hcur
  have hcur_lt : cur < days := by omega
  set ct := min r st.remaining_in_day with hct
  have hct_rd : ct ≤ st.remaining_in_day := min_le_right _ _
  have heps : (0:ℚ) < eps := by norm_num [eps]
  split_ifs with hrd hadv <;> dsimp only
  · -- advance with reset: cur + 1 < days
    have hc' : min (cur + 1) (days - 1) = cur + 1 := by omega
    have hcast : ((days - 1 - cur : ℕ) : ℚ) = ((days - 1 - (cur + 1) : ℕ) : ℚ) + 1 := by
      have : (days - 1 - cur : ℕ) = (days - 1 - (cur + 1)) + 1 := by omega
      rw [this]; push_cast; ring
    refine ⟨hdh, by omega, ?_⟩
    rw [hc', hcast]
    nlinarith [hct_rd]
  · -- advance without reset: cur + 1 = days
    have hc' : min (cur + 1) (days - 1) = cur := by omega
    refine ⟨by linarith, by omega, ?_⟩
    rw [hc']
    linarith
  · -- stay on the same day
    have hc' : min cur (days - 1) = cur := by omega
    refine ⟨by linarith, by omega, ?_⟩
    rw [hc']
    linarith

/-- If strictly more than the reachable capacity plus `1e-6` remains to be
placed, the while loop of `build_day_alloc` never terminates: it returns
`none` for every fuel. -/
theorem packWhile_none_of_overflow (days : ℕ) (dh : ℚ) (sub topic diff : String)
    (hdays : 1 ≤ days) (hdh : 0 ≤ dh) :
    ∀ fuel (r : ℚ) (st : PackState), 0 ≤ st.remaining_in_day → st.day_index ≤ days →
      capLeft days dh st + eps < r →
      packWhile days dh sub topic diff fuel r st = none := by
  intro fuel
  induction fuel with
  | zero => intro r st _ _ _; rfl
  | succ n ih =>
    intro r st h0 hle hcap
    have hcap0 : 0 ≤ capLeft days dh st := by
      unfold capLeft
      have : (0:ℚ) ≤ ((days - 1 - min st.day_index (days - 1) : ℕ) : ℚ) * dh :=
        mul_nonneg (by positivity) hdh
      linarith
    have heps : (0:ℚ) < eps := by norm_num [eps]
    have hr : eps < r := by linarith
    rw [packWhile, if_pos hr]
    obtain ⟨hs0, hsle, hscap⟩ :=
      packStep_cap days dh sub topic diff r st hdays hdh h0 hle
    apply ih _ _ hs0 hsle
    rw [packStep_fst]
    have hct_r : min r st.remaining_in_day ≤ r := min_le_left _ _
    linarith

/-- C5 (refuted): on a single 7-hour task with `days = 2`, `daily_hours = 3`
(total allocated hours exceed the budget), `build_day_alloc` never
terminates — the clamped last day has zero residual capacity that is never
reset, so the loop keeps cutting zero-hour chunks.  The spec's claim that
the pass always runs to completion, appending the overflow to the last day,
is false of the code. -/
theorem build_day_alloc_overflow_diverges :
    ∀ fuel, build_day_alloc fuel [⟨"S", "T", "hard", 3, 1, 7⟩] 2 3 = none := by
  intro fuel
  unfold build_day_alloc
  simp only [List.foldlM_cons, List.foldlM_nil]
  have hnone := packWhile_none_of_overflow 2 3 "S" "T" "hard" (by norm_num) (by norm_num)
    fuel 7 ⟨0, 3, List.replicate 2 0, []⟩ (by norm_num) (by norm_num) (by decide)
  rw [hnone]
  rfl

/-! ## Properties of the stable weight-descending sort -/

/-- Setting past the end of a list is a no-op. -/
theorem set_length_le (l : List ℚ) (i : ℕ) (a : ℚ) (h : l.length ≤ i) : l.set i a = l := by
  induction l generalizing i with
  | nil => rfl
  | cons x xs ih =>
    cases i with
    | zero => simp at h
    | succ n => simpa [List.set] using ih n (by simpa using h)

/-- Insertion adds the inserted item's hours to the mapped sum. -/
theorem hrs_insertWDesc (x : FlatItem) (l : List FlatItem) :
    ((insertWDesc x l).map FlatItem.hrs).sum = x.hrs + (l.map FlatItem.hrs).sum := by
  induction l with
  | nil => simp [insertWDesc]
  | cons y ys ih =>
    unfold insertWDesc
    split_ifs
    · simp
    · simp only [List.map_cons, List.sum_cons, ih]
      ring

/-- The stable sort preserves the sum of the items' hours. -/
theorem hrs_sortWDesc (l : List FlatItem) :
    ((sortWDesc l).map FlatItem.hrs).sum = (l.map FlatItem.hrs).sum := by
  induction l with
  | nil => rfl
  | cons x xs ih =>
    unfold sortWDesc
    rw [hrs_insertWDesc, ih]
    simp

/-- Insertion adds exactly one element. -/
theorem length_insertWDesc (x : FlatItem) (l : List FlatItem) :
    (insertWDesc x l).length = l.length + 1 := by
  induction l with
  | nil => rfl
  | cons y ys ih =>
    unfold insertWDesc
    split_ifs <;> simp [ih]

/-- The stable sort preserves length. -/
theorem length_sortWDesc (l : List FlatItem) : (sortWDesc l).length = l.length := by
  induction l with
  | nil => rfl
  | cons x xs ih =>
    unfold sortWDesc
    rw [length_insertWDesc, ih]
    rfl

/-- Members of an insertion come from the insertion or the base list. -/
theorem mem_insertWDesc (a x : FlatItem) (l : List FlatItem) (h : a ∈ insertWDesc x l) :
    a = x ∨ a ∈ l := by
  induction l with
  | nil => simpa [insertWDesc] using h
  | cons y ys ih =>
    unfold insertWDesc at h
    split_ifs at h
    · rcases List.mem_cons.mp h with rfl | h2
      · exact Or.inl rfl
      · exact Or.inr h2
    · rcases List.mem_cons.mp h with rfl | h2
      · exact Or.inr (List.mem_cons_self _ _)
      · rcases ih h2 with rfl | h3
        · exact Or.inl rfl
        · exact Or.inr (List.mem_cons_of_mem _ h3)

/-- Members of the sorted list are members of the original list. -/
theorem mem_sortWDesc (a : FlatItem) (l : List FlatItem) (h : a ∈ sortWDesc l) : a ∈ l := by
  induction l generalizing a with
  | nil => simpa [sortWDesc] using h
  | cons x xs ih =>
    unfold sortWDesc at h
    rcases mem_insertWDesc a x (sortWDesc xs) h with rfl | h2
    · exact List.mem_cons_self _ _
    · exact List.mem_cons_of_mem _ (ih a h2)

/-! ## Properties of the rebalancer's day scan -/

/-- Anatomy of one `for d in range(days)` scan of `rebalance_tasks`: the load
list keeps its length, the residual is between 0 and the input, the appended
chunk hours account exactly for what was consumed, every load entry is either
untouched or still within `daily_hours`, and every new chunk lands on a day
`d + 1` with `d` drawn from the scanned day list. -/
theorem rebalScan_spec (dh : ℚ) (f : FlatItem) :
    ∀ (ds : List ℕ) (loads : List ℚ) (cs : List Chunk) (remaining : ℚ) (placed : Bool),
      0 ≤ remaining →
      (rebalScan dh f ds loads cs remaining placed).1.length = loads.length ∧
      0 ≤ (rebalScan dh f ds loads cs remaining placed).2.2.1 ∧
      (rebalScan dh f ds loads cs remaining placed).2.2.1 ≤ remaining ∧
      chunkSum (rebalScan dh f ds loads cs remaining placed).2.1 =
        chunkSum cs + (remaining - (rebalScan dh f ds loads cs remaining placed).2.2.1) ∧
      (∀ j, (rebalScan dh f ds loads cs remaining placed).1.getD j 0 = loads.getD j 0 ∨
        (rebalScan dh f ds loads cs remaining placed).1.getD j 0 ≤ dh) ∧
      (∀ c ∈ (rebalScan dh f ds loads cs remaining placed).2.1,
        c ∈ cs ∨ ∃ d ∈ ds, c.day = d + 1) := by
  intro ds
  induction ds with
  | nil =>
    intro loads cs remaining placed h0
    refine ⟨rfl, h0, le_refl _, by simp [rebalScan], fun j => Or.inl rfl, fun c hc => Or.inl hc⟩
  | cons d ds ih =>
    intro loads cs remaining placed h0
    have heps : (0:ℚ) < eps := by norm_num [eps]
    simp only [rebalScan]
    split_ifs with hspace hbreak
    · -- placed a chunk and the item is exhausted: break out
      dsimp only
      set take := min (dh - loads.getD d 0) remaining with htake
      have htr : take ≤ remaining := min_le_right _ _
      have hts : take ≤ dh - loads.getD d 0 := min_le_left _ _
      have ht0 : 0 ≤ take := le_min (by linarith) h0
      refine ⟨by simp [List.length_set], by linarith, by linarith, ?_, ?_, ?_⟩
      · rw [chunkSum_append]
        simp [chunkSum]
      · intro j
        rcases le_or_lt loads.length d with hlen | hlen
        · rw [set_length_le loads d _ hlen]
          exact Or.inl rfl
        · rcases eq_or_ne d j with rfl | hne
          · rw [getD_set_self _ _ _ _ hlen]
            exact Or.inr (by linarith)
          · rw [getD_set_ne _ _ _ _ _ hne]
            exact Or.inl rfl
      · intro c hc
        rcases List.mem_append.mp hc with hc | hc
        · exact Or.inl hc
        · simp only [List.mem_singleton] at hc
          subst hc
          exact Or.inr ⟨d, List.mem_cons_self _ _, rfl⟩
    · -- placed a chunk, item not exhausted: keep scanning
      set take := min (dh - loads.getD d 0) remaining with htake
      have htr : take ≤ remaining := min_le_right _ _
      have hts : take ≤ dh - loads.getD d 0 := min_le_left _ _
      have ht0 : 0 ≤ take := le_min (by linarith) h0
      obtain ⟨ih1, ih2, ih3, ih4, ih5, ih6⟩ :=
        ih (loads.set d (loads.getD d 0 + take))
          (cs ++ [⟨d + 1, f.subject, f.topic, f.diff, take⟩]) (remaining - take) true
          (by linarith)
      refine ⟨by rw [ih1]; simp [List.length_set], ih2, by linarith, ?_, ?_, ?_⟩
      · rw [ih4, chunkSum_append]
        simp [chunkSum]
        ring
      · intro j
        rcases ih5 j with hj | hj
        · rw [hj]
          rcases le_or_lt loads.length d with hlen | hlen
          · rw [set_length_le loads d _ hlen]
            exact Or.inl rfl
          · rcases eq_or_ne d j with rfl | hne
            · rw [getD_set_self _ _ _ _ hlen]
              exact Or.inr (by linarith)
            · rw [getD_set_ne _ _ _ _ _ hne]
              exact Or.inl rfl
        · exact Or.inr hj
      · intro c hc
        rcases ih6 c hc with hc2 | hc2
        · rcases List.mem_append.mp hc2 with hc3 | hc3
          · exact Or.inl hc3
          · simp only [List.mem_singleton] at hc3
            subst hc3
            exact Or.inr ⟨d, List.mem_cons_self _ _, rfl⟩
        · obtain ⟨d', hd', he⟩ := hc2
          exact Or.inr ⟨d', List.mem_cons_of_mem _ hd', he⟩
    · -- no room in this day: skip it
      obtain ⟨ih1, ih2, ih3, ih4, ih5, ih6⟩ := ih loads cs remaining placed h0
      refine ⟨ih1, ih2, ih3, ih4, ih5, ?_⟩
      intro c hc
      rcases ih6 c hc with hc2 | ⟨d', hd', he⟩
      · exact Or.inl hc2
      · exact Or.inr ⟨d', List.mem_cons_of_mem _ hd', he⟩

/-- Anatomy of the rebalancer's per-item `while` loop, whenever it
terminates: loads keep their length, the chunk hours account for the item's
hours up to a residue of at most `1e-6`, non-last days are only ever filled
up to `daily_hours`, and every new chunk lands on a day in `1..days`. -/
theorem rebalWhile_spec (days : ℕ) (dh : ℚ) (f : FlatItem) (hdays : 1 ≤ days) :
    ∀ fuel (r : ℚ) (loads : List ℚ) (cs : List Chunk) (loads' : List ℚ) (cs' : List Chunk),
      0 ≤ r →
      rebalWhile days dh f fuel r loads cs = some (loads', cs') →
      loads'.length = loads.length ∧
      chunkSum cs' ≤ chunkSum cs + r ∧
      chunkSum cs + r ≤ chunkSum cs' + eps ∧
      (∀ j, j ≠ days - 1 → (loads'.getD j 0 = loads.getD j 0 ∨ loads'.getD j 0 ≤ dh)) ∧
      (∀ c ∈ cs', c ∈ cs ∨ (1 ≤ c.day ∧ c.day ≤ days)) := by
  intro fuel
  have heps : (0:ℚ) < eps := by norm_num [eps]
  induction fuel with
  | zero => intro r loads cs loads' cs' _ hsome; cases hsome
  | succ n ih =>
    intro r loads cs loads' cs' h0 hsome
    rw [rebalWhile] at hsome
    split_ifs at hsome with hr
    · rcases hsc : rebalScan dh f (List.range days) loads cs r false with ⟨ls, cs2, r2, p2⟩
      obtain ⟨s1, s2, s3, s4, s5, s6⟩ := rebalScan_spec dh f (List.range days) loads cs r false h0
      rw [hsc] at s1 s2 s3 s4 s5 s6 hsome
      dsimp only at s1 s2 s3 s4 s5 s6 hsome
      have hdayconv : ∀ c : Chunk, (∃ d ∈ List.range days, c.day = d + 1) →
          1 ≤ c.day ∧ c.day ≤ days := by
        rintro c ⟨d, hd, he⟩
        have := List.mem_range.mp hd
        omega
      by_cases hp : p2 = true
      · rw [if_pos hp] at hsome
        obtain ⟨i1, i2, i3, i4, i5⟩ := ih r2 ls cs2 loads' cs' s2 hsome
        refine ⟨by rw [i1, s1], by linarith, by linarith, ?_, ?_⟩
        · intro j hj
          rcases i4 j hj with h | h
          · rw [h]; exact s5 j
          · exact Or.inr h
        · intro c hc
          rcases i5 c hc with h | h
          · rcases s6 c h with h2 | h2
            · exact Or.inl h2
            · exact Or.inr (hdayconv c h2)
          · exact Or.inr h
      · rw [if_neg hp] at hsome
        cases hsome
        have hsum2 : chunkSum (cs2 ++ [⟨days, f.subject, f.topic, f.diff, r2⟩]) =
            chunkSum cs2 + r2 := by
          rw [chunkSum_append]; simp [chunkSum]
        refine ⟨by simp [List.length_set, s1], by rw [hsum2]; linarith,
          by rw [hsum2]; linarith, ?_, ?_⟩
        · intro j hj
          rw [getD_set_ne _ _ _ _ _ (Ne.symm hj)]
          exact s5 j
        · intro c hc
          rcases List.mem_append.mp hc with h | h
          · rcases s6 c h with h2 | h2
            · exact Or.inl h2
            · exact Or.inr (hdayconv c h2)
          · simp only [List.mem_singleton] at h
            subst h
            exact Or.inr ⟨by show 1 ≤ days; omega, by show days ≤ days; omega⟩
    · cases hsome
      push_neg at hr
      refine ⟨rfl, by linarith, by linarith, fun j _ => Or.inl rfl, fun c hc => Or.inl hc⟩

/-- Folding the rebalancer's while loop over all flat items. -/
theorem rebalFold_spec (days : ℕ) (dh : ℚ) (fuel : ℕ) (hdays : 1 ≤ days) :
    ∀ (fs : List FlatItem) (loads : List ℚ) (cs : List Chunk) (loads' : List ℚ)
      (cs' : List Chunk),
      (∀ g ∈ fs, 0 ≤ g.hrs) →
      fs.foldlM (fun acc g => rebalWhile days dh g fuel g.hrs acc.1 acc.2) (loads, cs) =
        some (loads', cs') →
      loads'.length = loads.length ∧
      chunkSum cs' ≤ chunkSum cs + (fs.map FlatItem.hrs).sum ∧
      chunkSum cs + (fs.map FlatItem.hrs).sum ≤ chunkSum cs' + fs.length * eps ∧
      (∀ j, j ≠ days - 1 → (loads'.getD j 0 = loads.getD j 0 ∨ loads'.getD j 0 ≤ dh)) ∧
      (∀ c ∈ cs', c ∈ cs ∨ (1 ≤ c.day ∧ c.day ≤ days)) := by
  intro fs
  induction fs with
  | nil =>
    intro loads cs loads' cs' _ hs
    simp only [List.foldlM_nil] at hs
    cases hs
    exact ⟨rfl, by simp, by simp, fun j _ => Or.inl rfl, fun c hc => Or.inl hc⟩
  | cons g gs ih =>
    intro loads cs loads' cs' hnn hs
    rw [List.foldlM_cons] at hs
    rcases Option.bind_eq_some.mp hs with ⟨mid, h1, h2⟩
    rcases mid with ⟨lmid, cmid⟩
    obtain ⟨w1, w2, w3, w4, w5⟩ := rebalWhile_spec days dh g hdays fuel g.hrs loads cs
      lmid cmid (hnn g (List.mem_cons_self g gs)) h1
    obtain ⟨f1, f2, f3, f4, f5⟩ := ih lmid cmid loads' cs'
      (fun u hu => hnn u (List.mem_cons_of_mem g hu)) h2
    have hsum : ((g :: gs).map FlatItem.hrs).sum = g.hrs + (gs.map FlatItem.hrs).sum := by simp
    have hlen : (((g :: gs).length : ℕ) : ℚ) * eps = eps + (gs.length : ℚ) * eps := by
      push_cast [List.length_cons]
      ring
    rw [hsum, hlen]
    refine ⟨by rw [f1, w1], by linarith, by linarith, ?_, ?_⟩
    · intro j hj
      rcases f4 j hj with h | h
      · rw [h]; exact w4 j hj
      · exact Or.inr h
    · intro c hc
      rcases f5 c hc with h | h
      · rcases w5 c h with h2 | h2
        · exact Or.inl h2
        · exact Or.inr h2
      · exact Or.inr h

/-- Structural half of `rebalScan_spec`, with no hypothesis on `remaining`:
length preservation, the per-day load disjunction, and chunk-day tracking. -/
theorem rebalScan_struct (dh : ℚ) (f : FlatItem) :
    ∀ (ds : List ℕ) (loads : List ℚ) (cs : List Chunk) (remaining : ℚ) (placed : Bool),
      (rebalScan dh f ds loads cs remaining placed).1.length = loads.length ∧
      (∀ j, (rebalScan dh f ds loads cs remaining placed).1.getD j 0 = loads.getD j 0 ∨
        (rebalScan dh f ds loads cs remaining placed).1.getD j 0 ≤ dh) ∧
      (∀ c ∈ (rebalScan dh f ds loads cs remaining placed).2.1,
        c ∈ cs ∨ ∃ d ∈ ds, c.day = d + 1) := by
  intro ds
  induction ds with
  | nil =>
    intro loads cs remaining placed
    exact ⟨rfl, fun j => Or.inl rfl, fun c hc => Or.inl hc⟩
  | cons d ds ih =>
    intro loads cs remaining placed
    simp only [rebalScan]
    split_ifs with hspace hbreak
    · dsimp only
      set take := min (dh - loads.getD d 0) remaining with htake
      have hts : take ≤ dh - loads.getD d 0 := min_le_left _ _
      refine ⟨by simp [List.length_set], ?_, ?_⟩
      · intro j
        rcases le_or_lt loads.length d with hlen | hlen
        · rw [set_length_le loads d _ hlen]
          exact Or.inl rfl
        · rcases eq_or_ne d j with rfl | hne
          · rw [getD_set_self _ _ _ _ hlen]
            exact Or.inr (by linarith)
          · rw [getD_set_ne _ _ _ _ _ hne]
            exact Or.inl rfl
      · intro c hc
        rcases List.mem_append.mp hc with hc | hc
        · exact Or.inl hc
        · simp only [List.mem_singleton] at hc
          subst hc
          exact Or.inr ⟨d, List.mem_cons_self _ _, rfl⟩
    · set take := min (dh - loads.getD d 0) remaining with htake
      have hts : take ≤ dh - loads.getD d 0 := min_le_left _ _
      obtain ⟨ih1, ih2, ih3⟩ :=
        ih (loads.set d (loads.getD d 0 + take))
          (cs ++ [⟨d + 1, f.subject, f.topic, f.diff, take⟩]) (remaining - take) true
      refine ⟨by rw [ih1]; simp [List.length_set], ?_, ?_⟩
      · intro j
        rcases ih2 j with hj | hj
        · rw [hj]
          rcases le_or_lt loads.length d with hlen | hlen
          · rw [set_length_le loads d _ hlen]
            exact Or.inl rfl
          · rcases eq_or_ne d j with rfl | hne
            · rw [getD_set_self _ _ _ _ hlen]
              exact Or.inr (by linarith)
            · rw [getD_set_ne _ _ _ _ _ hne]
              exact Or.inl rfl
        · exact Or.inr hj
      · intro c hc
        rcases ih3 c hc with hc2 | hc2
        · rcases List.mem_append.mp hc2 with hc3 | hc3
          · exact Or.inl hc3
          · simp only [List.mem_singleton] at hc3
            subst hc3
            exact Or.inr ⟨d, List.mem_cons_self _ _, rfl⟩
        · obtain ⟨d', hd', he⟩ := hc2
          exact Or.inr ⟨d', List.mem_cons_of_mem _ hd', he⟩
    · obtain ⟨ih1, ih2, ih3⟩ := ih loads cs remaining placed
      refine ⟨ih1, ih2, ?_⟩
      intro c hc
      rcases ih3 c hc with hc2 | ⟨d', hd', he⟩
      · exact Or.inl hc2
      · exact Or.inr ⟨d', List.mem_cons_of_mem _ hd', he⟩

/-- Structural half of `rebalWhile_spec`, with no hypothesis on the item's
hours. -/
theorem rebalWhile_struct (days : ℕ) (dh : ℚ) (f : FlatItem) (hdays : 1 ≤ days) :
    ∀ fuel (r : ℚ) (loads : List ℚ) (cs : List Chunk) (loads' : List ℚ) (cs' : List Chunk),
      rebalWhile days dh f fuel r loads cs = some (loads', cs') →
      loads'.length = loads.length ∧
      (∀ j, j ≠ days - 1 → (loads'.getD j 0 = loads.getD j 0 ∨ loads'.getD j 0 ≤ dh)) ∧
      (∀ c ∈ cs', c ∈ cs ∨ (1 ≤ c.day ∧ c.day ≤ days)) := by
  intro fuel
  induction fuel with
  | zero => intro r loads cs loads' cs' hsome; cases hsome
  | succ n ih =>
    intro r loads cs loads' cs' hsome
    rw [rebalWhile] at hsome
    split_ifs at hsome with hr
    · rcases hsc : rebalScan dh f (List.range days) loads cs r false with ⟨ls, cs2, r2, p2⟩
      obtain ⟨s1, s2, s3⟩ := rebalScan_struct dh f (List.range days) loads cs r false
      rw [hsc] at s1 s2 s3 hsome
      dsimp only at s1 s2 s3 hsome
      have hdayconv : ∀ c : Chunk, (∃ d ∈ List.range days, c.day = d + 1) →
          1 ≤ c.day ∧ c.day ≤ days := by
        rintro c ⟨d, hd, he⟩
        have := List.mem_range.mp hd
        omega
      by_cases hp : p2 = true
      · rw [if_pos hp] at hsome
        obtain ⟨i1, i2, i3⟩ := ih r2 ls cs2 loads' cs' hsome
        refine ⟨by rw [i1, s1], ?_, ?_⟩
        · intro j hj
          rcases i2 j hj with h | h
          · rw [h]; exact s2 j
          · exact Or.inr h
        · intro c hc
          rcases i3 c hc with h | h
          · rcases s3 c h with h2 | h2
            · exact Or.inl h2
            · exact Or.inr (hdayconv c h2)
          · exact Or.inr h
      · rw [if_neg hp] at hsome
        cases hsome
        refine ⟨by simp [List.length_set, s1], ?_, ?_⟩
        · intro j hj
          rw [getD_set_ne _ _ _ _ _ (Ne.symm hj)]
          exact s2 j
        · intro c hc
          rcases List.mem_append.mp hc with h | h
          · rcases s3 c h with h2 | h2
            · exact Or.inl h2
            · exact Or.inr (hdayconv c h2)
          · simp only [List.mem_singleton] at h
            subst h
            exact Or.inr ⟨by show 1 ≤ days; omega, by show days ≤ days; omega⟩
    · cases hsome
      exact ⟨rfl, fun j _ => Or.inl rfl, fun c hc => Or.inl hc⟩

/-- Structural half of `rebalFold_spec`. -/
theorem rebalFold_struct (days : ℕ) (dh : ℚ) (fuel : ℕ) (hdays : 1 ≤ days) :
    ∀ (fs : List FlatItem) (loads : List ℚ) (cs : List Chunk) (loads' : List ℚ)
      (cs' : List Chunk),
      fs.foldlM (fun acc g => rebalWhile days dh g fuel g.hrs acc.1 acc.2) (loads, cs) =
        some (loads', cs') →
      loads'.length = loads.length ∧
      (∀ j, j ≠ days - 1 → (loads'.getD j 0 = loads.getD j 0 ∨ loads'.getD j 0 ≤ dh)) ∧
      (∀ c ∈ cs', c ∈ cs ∨ (1 ≤ c.day ∧ c.day ≤ days)) := by
  intro fs
  induction fs with
  | nil =>
    intro loads cs loads' cs' hs
    simp only [List.foldlM_nil] at hs
    cases hs
    exact ⟨rfl, fun j _ => Or.inl rfl, fun c hc => Or.inl hc⟩
  | cons g gs ih =>
    intro loads cs loads' cs' hs
    rw [List.foldlM_cons] at hs
    rcases Option.bind_eq_some.mp hs with ⟨mid, h1, h2⟩
    rcases mid with ⟨lmid, cmid⟩
    obtain ⟨w1, w2, w3⟩ := rebalWhile_struct days dh g hdays fuel g.hrs loads cs lmid cmid h1
    obtain ⟨f1, f2, f3⟩ := ih lmid cmid loads' cs' h2
    refine ⟨by rw [f1, w1], ?_, ?_⟩
    · intro j hj
      rcases f2 j hj with h | h
      · rw [h]; exact w2 j hj
      · exact Or.inr h
    · intro c hc
      rcases f3 c hc with h | h
      · rcases w3 c h with h2 | h2
        · exact Or.inl h2
        · exact Or.inr h2
      · exact Or.inr h

/-! ## Claim C3: packing conservation -/

/-- C3 (refuted as stated): the simple packer drops a sub-`1e-6` residue of
a task outright — on a single task of `3 + 1/2000000` hours with one 3-hour
day, the produced plan holds exactly 3 hours, strictly less than the task's
allocated hours, so chunk hours do not equal allocated hours. -/
theorem build_day_alloc_drops_residue :
    build_day_alloc 5 [⟨"S", "T", "hard", 3, 1, 3 + 1/2000000⟩] 1 3 =
      some ([3], [⟨1, "S", "T", "hard", 3⟩]) ∧
    chunkSum [⟨1, "S", "T", "hard", 3⟩] ≠
      sumHours [⟨"S", "T", "hard", 3, 1, 3 + 1/2000000⟩] :=
  ⟨by decide, by decide⟩

/-- C3 (amended): whenever either packer returns a plan, the total chunk
hours equal the total task hours up to a dropped residue of at most `1e-6`
per task: `Σ chunks ≤ Σ hours ≤ Σ chunks + n·1e-6`.  Hours are never
duplicated.  (Exact conservation fails, see the counterexample; and under
overflow the simple packer does not return at all, see C5.) -/
theorem packing_conservation_within_residue (tasks : List WorkItem) (days : ℕ) (dh : ℚ)
    (fuel : ℕ) (hdays : 1 ≤ days) (hnn : ∀ t ∈ tasks, 0 ≤ t.hours) :
    (∀ alloc plan, build_day_alloc fuel tasks days dh = some (alloc, plan) →
      chunkSum plan ≤ sumHours tasks ∧
      sumHours tasks ≤ chunkSum plan + (tasks.length : ℚ) * eps) ∧
    (∀ loads plan, rebalance_tasks fuel tasks days dh = some (loads, plan) →
      chunkSum plan ≤ sumHours tasks ∧
      sumHours tasks ≤ chunkSum plan + (tasks.length : ℚ) * eps) := by
  constructor
  · intro alloc plan hout
    unfold build_day_alloc at hout
    rcases Option.map_eq_some'.mp hout with ⟨st, hst, heq⟩
    have hplan : st.plan = plan := congrArg Prod.snd heq
    have hs := packFold_sum days dh fuel tasks _ st hnn hst
    rw [hplan] at hs
    constructor
    · have := hs.1
      simpa [chunkSum] using this
    · have := hs.2
      simpa [chunkSum] using this
  · intro loads plan hout
    simp only [rebalance_tasks] at hout
    set flat := sortWDesc (tasks.map fun t =>
      (⟨t.subject, t.topic, t.diff, combined_weight t, t.hours⟩ : FlatItem)) with hflat
    have hnnf : ∀ g ∈ flat, 0 ≤ g.hrs := by
      intro g hg
      have hg2 := mem_sortWDesc g _ hg
      obtain ⟨t, ht, rfl⟩ := List.mem_map.mp hg2
      exact hnn t ht
    obtain ⟨f1, f2, f3, f4, f5⟩ :=
      rebalFold_spec days dh fuel hdays flat (List.replicate days 0) [] loads plan hnnf hout
    have hsum : (flat.map FlatItem.hrs).sum = sumHours tasks := by
      rw [hflat, hrs_sortWDesc, List.map_map]
      rfl
    have hlen : ((flat.length : ℕ) : ℚ) = ((tasks.length : ℕ) : ℚ) := by
      rw [hflat, length_sortWDesc, List.length_map]
    rw [hsum] at f2 f3
    rw [hlen] at f3
    constructor
    · simpa [chunkSum] using f2
    · simpa [chunkSum] using f3

/-- Witness for the amended C3 on a one-task instance where both packers
return. -/
theorem packing_conservation_within_residue_witness :
    chunkSum [⟨1, "a", "b", "c", 2⟩] ≤ sumHours [⟨"a", "b", "c", 1, 1, 2⟩] ∧
    sumHours [⟨"a", "b", "c", 1, 1, 2⟩] ≤
      chunkSum [⟨1, "a", "b", "c", 2⟩] +
        (([(⟨"a", "b", "c", 1, 1, 2⟩ : WorkItem)].length : ℕ) : ℚ) * eps :=
  (packing_conservation_within_residue [⟨"a", "b", "c", 1, 1, 2⟩] 2 3 10
    (by decide) (by decide)).1 [2, 0] [⟨1, "a", "b", "c", 2⟩] (by decide)

/-! ## Claim C10: day-range and capacity invariants of both packers -/

/-- C10: whenever either packer returns, the per-day totals list has length
exactly `days`, every chunk's day lies in `1..days` (the plan never extends
past day `days`, even under overflow), and every day other than the last
stays within `daily_hours + 1e-6` — only the final day can exceed its
capacity. -/
theorem packers_day_invariants (tasks : List WorkItem) (days : ℕ) (dh : ℚ) (fuel : ℕ)
    (hdays : 1 ≤ days) (hdh : 0 < dh) :
    (∀ alloc plan, build_day_alloc fuel tasks days dh = some (alloc, plan) →
      alloc.length = days ∧
      (∀ c ∈ plan, 1 ≤ c.day ∧ c.day ≤ days) ∧
      ∀ j, j < days → j ≠ days - 1 → alloc.getD j 0 ≤ dh + eps) ∧
    (∀ loads plan, rebalance_tasks fuel tasks days dh = some (loads, plan) →
      loads.length = days ∧
      (∀ c ∈ plan, 1 ≤ c.day ∧ c.day ≤ days) ∧
      ∀ j, j < days → j ≠ days - 1 → loads.getD j 0 ≤ dh + eps) := by
  have heps : (0:ℚ) < eps := by norm_num [eps]
  constructor
  · intro alloc plan hout
    unfold build_day_alloc at hout
    rcases Option.map_eq_some'.mp hout with ⟨st, hst, heq⟩
    have halloc : st.day_alloc = alloc := congrArg Prod.fst heq
    have hplan : st.plan = plan := congrArg Prod.snd heq
    obtain ⟨h1, h2, h3, h4, h5, h6, h7⟩ :=
      packFold_inv days dh fuel hdays (le_of_lt hdh) tasks _ st
        (packInit_inv days dh hdays (le_of_lt hdh)) hst
    refine ⟨by rw [← halloc]; exact h3, by rw [← hplan]; exact h7, ?_⟩
    intro j _ _
    rw [← halloc]
    rcases eq_or_ne j (min st.day_index (days - 1)) with heqj | hne
    · rw [heqj]; linarith
    · linarith [h5 j hne]
  · intro loads plan hout
    simp only [rebalance_tasks] at hout
    obtain ⟨f1, f2, f3⟩ := rebalFold_struct days dh fuel hdays _
      (List.replicate days 0) [] loads plan hout
    refine ⟨by rw [f1]; simp, ?_, ?_⟩
    · intro c hc
      rcases f3 c hc with h | h
      · simp at h
      · exact h
    · intro j _ hj
      rcases f2 j hj with h | h
      · rw [h, getD_replicate]
        split <;> linarith
      · linarith

/-- Witness for C10 on a one-task instance where both packers return. -/
theorem packers_day_invariants_witness :
    [(2:ℚ), 0].length = 2 ∧ [(2:ℚ), 0].getD 0 0 ≤ 3 + eps :=
  ⟨((packers_day_invariants [⟨"a", "b", "c", 1, 1, 2⟩] 2 3 10 (by decide) (by decide)).1
      [2, 0] [⟨1, "a", "b", "c", 2⟩] (by decide)).1,
   ((packers_day_invariants [⟨"a", "b", "c", 1, 1, 2⟩] 2 3 10 (by decide) (by decide)).2
      [2, 0] [⟨1, "a", "b", "c", 2⟩] (by decide)).2.2 0 (by norm_num) (by norm_num)⟩
